import Mathlib

/-!
Shallow embedding of the concurrency core of the clock_speed repository:
the two spin-barrier variants (spin_barrier.h) and the pstamp event ring
(pstamp.h), plus a spec-modelled ring merger.  C `unsigned` arithmetic is
modelled on Nat with explicit reduction mod 2^32 wherever the C code can
wrap; sequential state is passed explicitly.
-/

namespace ClockSpeed

/-- 2^32, the modulus of the C `unsigned` type. -/
def U32 : Nat := 4294967296

/-- 32-bit unsigned subtraction a - b (two's-complement wraparound). -/
def usub (a b : Nat) : Nat := (a + (U32 - b % U32)) % U32

/-- One step of the bit-smear from Hacker's Delight: or in a right shift. -/
def orshr (x s : Nat) : Nat := x ||| (x >>> s)

/-- The five-shift bit smear shared by flp2 and clp2: extends the high
order bit rightwards, filling all lower bit positions. -/
def smear (x : Nat) : Nat := orshr (orshr (orshr (orshr (orshr x 1) 2) 4) 8) 16

/-- flp2 from the first spin_barrier.h variant: after the smear the value
is 2^(log2 x + 1) - 1 and x - (x >> 1) isolates the highest set bit,
the largest power of two <= x (despite the comment in the source). -/
def flp2 (x : Nat) : Nat := smear x - (smear x >>> 1)

/-- clp2 from the second spin_barrier.h variant: decrement (with unsigned
wraparound), smear, increment (with unsigned wraparound); yields the
smallest power of two >= x for 1 <= x <= 2^31. -/
def clp2 (x : Nat) : Nat := (smear (usub x 1) + 1) % U32

namespace SpinV1

/-- barrier_t of the first (flp2-based) spin_barrier.h variant. -/
structure barrier_t where
  word : Nat
  n : Nat
deriving DecidableEq, Repr

/-- barrier_init of the first variant: n := flp2 count, word := n - count
(unsigned). -/
def barrier_init (count : Nat) : barrier_t :=
  { word := usub (flp2 count) count, n := flp2 count }

/-- barrier_wait of the first variant, as its effect on the shared word:
one atomic increment.  Returns the new state, the fetched value v, and
the follower flag v & (n-1) != 0 (followers spin, the releaser returns). -/
def barrier_wait (b : barrier_t) : barrier_t × Nat × Bool :=
  let v := (b.word + 1) % U32
  (⟨v, b.n⟩, v, (v &&& (b.n - 1)) != 0)

/-- m sequential barrier_wait calls (the serialization of the atomic
increments of m arriving threads). -/
def waitN (b : barrier_t) : Nat → barrier_t
  | 0 => b
  | m + 1 => (barrier_wait (waitN b m)).1

end SpinV1

namespace SpinV2

/-- barrier_t of the second (clp2-based) spin_barrier.h variant, with the
reset field pre-added by the releaser in the non-power-of-two case. -/
structure barrier_t where
  word : Nat
  n : Nat
  reset : Nat
deriving DecidableEq, Repr

/-- barrier_init of the second variant: n := clp2 count,
word := reset := n - count (unsigned). -/
def barrier_init (count : Nat) : barrier_t :=
  { word := usub (clp2 count) count, n := clp2 count,
    reset := usub (clp2 count) count }

/-- barrier_wait of the second variant, as its effect on the shared word:
an atomic increment, and, for the releaser (v & (n-1) == 0) when reset is
nonzero, one atomic add of reset.  Returns the new state, the fetched
value v, and the follower flag. -/
def barrier_wait (b : barrier_t) : barrier_t × Nat × Bool :=
  let v := (b.word + 1) % U32
  if (v &&& (b.n - 1)) != 0 then (⟨v, b.n, b.reset⟩, v, true)
  else if b.reset != 0 then (⟨(v + b.reset) % U32, b.n, b.reset⟩, v, false)
  else (⟨v, b.n, b.reset⟩, v, false)

/-- m sequential barrier_wait calls (the serialization of the atomic
operations of m arriving threads). -/
def waitN (b : barrier_t) : Nat → barrier_t
  | 0 => b
  | m + 1 => (barrier_wait (waitN b m)).1

end SpinV2

/-- pstamp_t from pstamp.h: point tag, logical processor, TSC time. -/
structure pstamp_t where
  point : Int
  logical_processor : Int
  time : Nat
deriving DecidableEq, Repr, Inhabited

/-- pstamp_log_t from pstamp.h: the captured stamp plus a value copy of
its cause. -/
structure pstamp_log_t where
  pstamp : pstamp_t
  cause : pstamp_t
deriving DecidableEq, Repr, Inhabited

/-- pstamp_ring_t from pstamp.h.  The successor pointer is modelled as an
optional nested ring value. -/
inductive pstamp_ring_t where
  | mk (next_ring : Option pstamp_ring_t) (size next end_ : Nat)
      (inactive : Bool) (overflows : Nat) (ring : List pstamp_log_t)

/-- Successor link of a ring. -/
def pstamp_ring_t.next_ring : pstamp_ring_t → Option pstamp_ring_t
  | .mk a _ _ _ _ _ _ => a

/-- Capacity field of a ring. -/
def pstamp_ring_t.size : pstamp_ring_t → Nat
  | .mk _ a _ _ _ _ _ => a

/-- Write cursor of a ring. -/
def pstamp_ring_t.next : pstamp_ring_t → Nat
  | .mk _ _ a _ _ _ _ => a

/-- Active-window end marker of a ring (the C field named end). -/
def pstamp_ring_t.end_ : pstamp_ring_t → Nat
  | .mk _ _ _ a _ _ _ => a

/-- Inactive flag of a ring. -/
def pstamp_ring_t.inactive : pstamp_ring_t → Bool
  | .mk _ _ _ _ a _ _ => a

/-- Overflow counter of a ring. -/
def pstamp_ring_t.overflows : pstamp_ring_t → Nat
  | .mk _ _ _ _ _ a _ => a

/-- Slot storage of a ring. -/
def pstamp_ring_t.ring : pstamp_ring_t → List pstamp_log_t
  | .mk _ _ _ _ _ _ a => a

/-- _wrap from pstamp.h: compare with size and wrap to zero. -/
def _wrap (n size : Nat) : Nat := if n < size then n else 0

/-- pstamp_ring_init from pstamp.h.  The C function leaves the slot array
uninitialized, so the pre-existing (garbage) contents are a parameter. -/
def pstamp_ring_init (garbage : List pstamp_log_t) (size : Nat) : pstamp_ring_t :=
  .mk none size 0 size false 0 garbage

/-- log_pstamp from pstamp.h: build the logged entry from the captured
stamp (point plus the hardware-read processor and time, which are inputs
here) and a value copy of the cause. -/
def log_pstamp (point lp : Int) (time : Nat) (cause : pstamp_t) : pstamp_log_t :=
  ⟨⟨point, lp, time⟩, cause⟩

/-- The common tail of pstamp_log: advance the cursor with _wrap and store
the new entry at the new cursor position. -/
def writeEntry (r : pstamp_ring_t) (point lp : Int) (time : Nat)
    (cause : pstamp_t) : pstamp_ring_t :=
  match r with
  | .mk nr size next end_ ia ov ring =>
    .mk nr size (_wrap (next + 1) size) end_ ia ov
      (ring.set (_wrap (next + 1) size) (log_pstamp point lp time cause))

/-- pstamp_log from pstamp.h.  If the ring is full (next == end): with no
successor, pull end and next forward with _wrap (overwrite mode); with a
successor, mark this ring inactive and write into the successor (one hop).
Then the common tail writes the entry.  Returns the updated ring and a
flag telling the caller whether the write moved to the successor (the C
code returns the ring pointer to use next). -/
def pstamp_log (r : pstamp_ring_t) (point lp : Int) (time : Nat)
    (cause : pstamp_t) : pstamp_ring_t × Bool :=
  match r with
  | .mk nr size next end_ ia ov ring =>
    if next = end_ then
      match nr with
      | none =>
        let w := _wrap (next + 1) size
        (writeEntry (.mk none size w w ia ov ring) point lp time cause, false)
      | some sub =>
        (.mk (some (writeEntry sub point lp time cause)) size next end_ true ov ring,
          true)
    else (writeEntry r point lp time cause, false)

/-- pstamp_log_extend from pstamp.h: attach a successor only if this ring
is active and has none yet; otherwise fail and change nothing. -/
def pstamp_log_extend (r next_ring : pstamp_ring_t) : Bool × pstamp_ring_t :=
  match r with
  | .mk nr size next end_ ia ov ring =>
    match ia, nr with
    | false, none => (true, .mk (some next_ring) size next end_ false ov ring)
    | _, _ => (false, r)

/-- pstamp_log_overflows from pstamp.h. -/
def pstamp_log_overflows (r : pstamp_ring_t) : Nat := r.overflows

/-- pstamp_log_extended from pstamp.h. -/
def pstamp_log_extended (r : pstamp_ring_t) : Bool := r.next_ring.isSome

/-- The loop of pstamp_log_enumerate: from i, stop on i == last, else
visit i and continue at _wrap (i+1).  The C loop has no fuel; the fuel
argument makes the function total, and the enumeration theorems show that
fuel = size always suffices (termination). -/
def enumFuel (size last : Nat) : Nat → Nat → List Nat
  | 0, _ => []
  | fuel + 1, i => if i = last then [] else i :: enumFuel size last fuel (_wrap (i + 1) size)

/-- Slot indices visited by pstamp_log_enumerate: snapshot size and next,
start at _wrap (end + 1), walk until the cursor. -/
def pstamp_log_enumerate_idx (r : pstamp_ring_t) : List Nat :=
  enumFuel r.size r.next r.size (_wrap (r.end_ + 1) r.size)

/-- pstamp_log_enumerate from pstamp.h, as the list of entries passed to
the callback, in visit order. -/
def pstamp_log_enumerate (r : pstamp_ring_t) : List pstamp_log_t :=
  (pstamp_log_enumerate_idx r).map (fun i => r.ring.getD i default)

/-- The inputs of one record call: the point tag, the hardware-captured
logical processor and time, and the cause to copy. -/
structure RecordCall where
  point : Int
  lp : Int
  time : Nat
  cause : pstamp_t
deriving DecidableEq, Repr

/-- A sequence of pstamp_log calls against a ring. -/
def recordRun (r : pstamp_ring_t) : List RecordCall → pstamp_ring_t
  | [] => r
  | a :: rest => recordRun (pstamp_log r a.point a.lp a.time a.cause).1 rest

/-- Entry lookup across a ring and its successor: location (false, j) is
slot j of the ring itself, (true, j) is slot j of its successor. -/
def chainEntry (r : pstamp_ring_t) (p : Bool × Nat) : Option pstamp_log_t :=
  if p.1 then
    match r.next_ring with
    | none => none
    | some sub => sub.ring[p.2]?
  else r.ring[p.2]?

/-- Cyclic distance from i to last when stepping by _wrap (i+1) inside
[0, size): the number of loop iterations pstamp_log_enumerate performs
from i before reaching last. -/
def cycDist (size last i : Nat) : Nat :=
  if i ≤ last then last - i else size + last - i

/-- Modelled from the spec: timestamp of the current head of input ring i
(RingMerger internals; no merger implementation exists under src, pstamp.h
only describes merging in comments). -/
def headTimeD (rs : List (List pstamp_log_t)) (i : Nat) : Nat :=
  ((rs.getD i []).headD default).pstamp.time

/-- Modelled from the spec: index of the input ring whose current head has
the smallest timestamp, ties broken by the smaller input index; none when
every input is exhausted (RingMerger internals). -/
def bestIdx : List (List pstamp_log_t) → Option Nat
  | [] => none
  | l :: rest =>
    match bestIdx rest with
    | none => if l.isEmpty then none else some 0
    | some j =>
      if l.isEmpty then some (j + 1)
      else if headTimeD rest j < (l.headD default).pstamp.time then some (j + 1)
      else some 0

/-- Total number of entries over all input rings. -/
def totalLen (rs : List (List pstamp_log_t)) : Nat := (rs.map List.length).sum

/-- Modelled from the spec: the k-way merge loop with explicit fuel; each
step emits the chosen head and consumes it from that input. -/
def mergeFuel : Nat → List (List pstamp_log_t) → List pstamp_log_t
  | 0, _ => []
  | fuel + 1, rs =>
    match bestIdx rs with
    | none => []
    | some i =>
      (rs.getD i []).headD default :: mergeFuel fuel (rs.set i (rs.getD i []).tail)

/-- Modelled from the spec: RingMerger.merge over completed rings given as
entry lists (spec section 4.3): produce the finite timestamp-ordered k-way
merge, at each step emitting the not-yet-emitted entry with the smallest
timestamp among the inputs' current heads, ties broken by input index,
without mutating the inputs. -/
def mergeRings (rs : List (List pstamp_log_t)) : List pstamp_log_t :=
  mergeFuel (totalLen rs) rs

/-! ### Bit-smear correctness -/

theorem U32_eq : U32 = 2 ^ 32 := by decide

theorem testBit_orshr (x s i : Nat) :
    (orshr x s).testBit i = (x.testBit i || x.testBit (i + s)) := by
  simp [orshr, Nat.add_comm s i]

theorem orshr_bits {x : Nat} (m : Nat) (a : Nat)
    (h : ∀ j, a.testBit j = true ↔ ∃ s, s < m ∧ x.testBit (j + s) = true) :
    ∀ j, (orshr a m).testBit j = true ↔ ∃ s, s < 2 * m ∧ x.testBit (j + s) = true := by
  intro j
  rw [testBit_orshr, Bool.or_eq_true, h j, h (j + m)]
  constructor
  · rintro (⟨s, hs, hb⟩ | ⟨s, hs, hb⟩)
    · exact ⟨s, by omega, hb⟩
    · refine ⟨m + s, by omega, ?_⟩
      have e : j + (m + s) = j + m + s := by omega
      rw [e]; exact hb
  · rintro ⟨s, hs, hb⟩
    by_cases hsm : s < m
    · exact Or.inl ⟨s, hsm, hb⟩
    · refine Or.inr ⟨s - m, by omega, ?_⟩
      have e : j + m + (s - m) = j + s := by omega
      rw [e]; exact hb

theorem smear_bits (x : Nat) :
    ∀ j, (smear x).testBit j = true ↔ ∃ s, s < 32 ∧ x.testBit (j + s) = true := by
  have h1 : ∀ j, x.testBit j = true ↔ ∃ s, s < 1 ∧ x.testBit (j + s) = true := by
    intro j
    constructor
    · intro hb; exact ⟨0, by omega, by simpa using hb⟩
    · rintro ⟨s, hs, hb⟩
      have hs0 : s = 0 := by omega
      subst hs0; simpa using hb
  have h2 := orshr_bits 1 x h1
  have h4 := orshr_bits 2 _ h2
  have h8 := orshr_bits 4 _ h4
  have h16 := orshr_bits 8 _ h8
  have h32 := orshr_bits 16 _ h16
  intro j
  simpa [smear] using h32 j

theorem testBit_log2_self {x : Nat} (hx : x ≠ 0) : x.testBit x.log2 = true := by
  have h1 : 2 ^ x.log2 ≤ x := Nat.log2_self_le hx
  have h2 : x < 2 ^ (x.log2 + 1) := Nat.lt_log2_self
  have e : 2 ^ (x.log2 + 1) = 2 ^ x.log2 * 2 := Nat.pow_succ 2 x.log2
  have hdiv : x / 2 ^ x.log2 = 1 := Nat.div_eq_of_lt_le (by omega) (by omega)
  rw [Nat.testBit_to_div_mod, hdiv]
  simp

theorem smear_eq {x : Nat} (h1 : x ≠ 0) (h2 : x < 2 ^ 32) :
    smear x = 2 ^ (x.log2 + 1) - 1 := by
  have hL : x.log2 < 32 := (Nat.log2_lt h1).mpr h2
  apply Nat.eq_of_testBit_eq
  intro i
  rw [Nat.testBit_two_pow_sub_one]
  by_cases hi : i < x.log2 + 1
  · have hbit : (smear x).testBit i = true := by
      refine (smear_bits x i).mpr ⟨x.log2 - i, by omega, ?_⟩
      have e : i + (x.log2 - i) = x.log2 := by omega
      rw [e]; exact testBit_log2_self h1
    simp [hbit, hi]
  · cases hb : (smear x).testBit i with
    | true =>
      obtain ⟨s, hs, hbit⟩ := (smear_bits x i).mp hb
      have hlt : x < 2 ^ (i + s) :=
        lt_of_lt_of_le Nat.lt_log2_self (Nat.pow_le_pow_right (by norm_num) (by omega))
      rw [Nat.testBit_lt_two_pow hlt] at hbit
      exact absurd hbit (by simp)
    | false => simp [hi]

theorem usub_eq {a b : Nat} (hb : b ≤ a) (ha : a < U32) : usub a b = a - b := by
  have ha' : a < 4294967296 := ha
  unfold usub U32
  omega

theorem clp2_spec {c : Nat} (h1 : 1 ≤ c) (h2 : c ≤ 2 ^ 31) :
    ∃ k, k ≤ 31 ∧ clp2 c = 2 ^ k ∧ c ≤ 2 ^ k ∧ ∀ m, c ≤ 2 ^ m → k ≤ m := by
  rcases eq_or_lt_of_le h1 with h | h
  · have hc1 : c = 1 := h.symm
    subst hc1
    exact ⟨0, by omega, by decide, by omega, fun m _ => Nat.zero_le m⟩
  · have hy1 : c - 1 ≠ 0 := by omega
    have hyU : c - 1 < 2 ^ 32 := by omega
    have husub : usub c 1 = c - 1 := usub_eq (by omega) (by rw [U32_eq]; omega)
    have hs := smear_eq hy1 hyU
    have hL : (c - 1).log2 < 31 := (Nat.log2_lt hy1).mpr (by omega)
    have hup : c - 1 < 2 ^ ((c - 1).log2 + 1) := Nat.lt_log2_self
    refine ⟨(c - 1).log2 + 1, by omega, ?_, by omega, ?_⟩
    · unfold clp2
      rw [husub, hs]
      have hpow : 2 ^ ((c - 1).log2 + 1) ≤ 2 ^ 31 :=
        Nat.pow_le_pow_right (by norm_num) (by omega)
      have hone : 1 ≤ 2 ^ ((c - 1).log2 + 1) := Nat.one_le_two_pow
      have e : 2 ^ ((c - 1).log2 + 1) - 1 + 1 = 2 ^ ((c - 1).log2 + 1) := by omega
      rw [e, U32_eq]
      exact Nat.mod_eq_of_lt (by omega)
    · intro m hm
      have hym : c - 1 < 2 ^ m := by omega
      have := (Nat.log2_lt hy1).mpr hym
      omega

theorem flp2_two_pow {k : Nat} (hk : k ≤ 31) : flp2 (2 ^ k) = 2 ^ k := by
  have hx0 : (2 : Nat) ^ k ≠ 0 := (Nat.pow_pos (by norm_num)).ne'
  have hle : (2 : Nat) ^ k ≤ 2 ^ 31 := Nat.pow_le_pow_right (by norm_num) hk
  have hxU : (2 : Nat) ^ k < 2 ^ 32 := by omega
  have hs := smear_eq hx0 hxU
  rw [flp2, hs, Nat.log2_two_pow, Nat.shiftRight_one]
  have h1 : (1 : Nat) ≤ 2 ^ k := Nat.one_le_two_pow
  have h2 : (2 : Nat) ^ (k + 1) = 2 ^ k * 2 := Nat.pow_succ 2 k
  omega

theorem clp2_two_pow {k : Nat} (hk : k ≤ 31) : clp2 (2 ^ k) = 2 ^ k := by
  obtain ⟨j, hj31, hval, hle, hmin⟩ :=
    @clp2_spec (2 ^ k) Nat.one_le_two_pow (Nat.pow_le_pow_right (by norm_num) hk)
  have hj : j ≤ k := hmin k (le_refl _)
  have hjk : (2 : Nat) ^ j ≤ 2 ^ k := Nat.pow_le_pow_right (by norm_num) hj
  omega

/-! ### C3: barrier_init rounds the count up to the least power of two -/

/-- C3: for 1 <= count <= 2^31, barrier_init sets n to the least power of
two P >= count and both word and reset to the correction P - count.  (For
count > 2^31 the claim fails, see the counterexample: clp2 wraps to 0.) -/
theorem c3_barrier_init_correction (count : Nat) (h1 : 1 ≤ count) (h2 : count ≤ 2 ^ 31) :
    ((∃ k, (SpinV2.barrier_init count).n = 2 ^ k) ∧
      count ≤ (SpinV2.barrier_init count).n ∧
      (∀ m, count ≤ 2 ^ m → (SpinV2.barrier_init count).n ≤ 2 ^ m)) ∧
    (SpinV2.barrier_init count).word = (SpinV2.barrier_init count).n - count ∧
    (SpinV2.barrier_init count).reset = (SpinV2.barrier_init count).n - count := by
  obtain ⟨k, hk31, hval, hle, hmin⟩ := clp2_spec h1 h2
  have hn : (SpinV2.barrier_init count).n = clp2 count := rfl
  have hword : (SpinV2.barrier_init count).word = usub (clp2 count) count := rfl
  have hreset : (SpinV2.barrier_init count).reset = usub (clp2 count) count := rfl
  have hpow : (2 : Nat) ^ k ≤ 2 ^ 31 := Nat.pow_le_pow_right (by norm_num) hk31
  have hlt : clp2 count < U32 := by rw [U32_eq, hval]; omega
  have hcle : count ≤ clp2 count := by omega
  refine ⟨⟨⟨k, by rw [hn, hval]⟩, by rw [hn]; omega, ?_⟩, ?_, ?_⟩
  · intro m hm
    have := hmin m hm
    have : (2 : Nat) ^ k ≤ 2 ^ m := Nat.pow_le_pow_right (by norm_num) this
    rw [hn]; omega
  · rw [hword, hn, usub_eq hcle hlt]
  · rw [hreset, hn, usub_eq hcle hlt]

/-- C3 counterexample: at count = 2^31 + 1 the n field wraps to 0, which
is smaller than count, so it is not the least power of two >= count and
the claimed initialization result fails. -/
theorem c3_counterexample :
    (SpinV2.barrier_init (2 ^ 31 + 1)).n = 0 ∧
    ¬ (2 ^ 31 + 1 ≤ (SpinV2.barrier_init (2 ^ 31 + 1)).n) := by
  exact ⟨by decide, by decide⟩

/-- C3 witness: the amended theorem applies at count = 5. -/
theorem c3_witness :
    (1 ≤ 5 ∧ 5 ≤ 2 ^ 31) ∧
    (((∃ k, (SpinV2.barrier_init 5).n = 2 ^ k) ∧
      5 ≤ (SpinV2.barrier_init 5).n ∧
      (∀ m, 5 ≤ 2 ^ m → (SpinV2.barrier_init 5).n ≤ 2 ^ m)) ∧
    (SpinV2.barrier_init 5).word = (SpinV2.barrier_init 5).n - 5 ∧
    (SpinV2.barrier_init 5).reset = (SpinV2.barrier_init 5).n - 5) :=
  ⟨⟨by decide, by decide⟩, c3_barrier_init_correction 5 (by decide) (by decide)⟩

/-! ### C8: for power-of-two counts the two barrier variants agree -/

theorem barrier_wait_v2_reset_zero (w n : Nat) :
    SpinV2.barrier_wait ⟨w, n, 0⟩ =
      (⟨(w + 1) % U32, n, 0⟩, (w + 1) % U32, ((w + 1) % U32 &&& (n - 1)) != 0) := by
  cases h : ((w + 1) % U32 &&& (n - 1)) != 0 <;> simp [SpinV2.barrier_wait, h]

/-- C8: when count is a power of two (count = 2^k, k <= 31), the clp2
variant initializes with correction reset = 0, both variants produce the
same initial word and n, and the two wait implementations agree step for
step: same word trajectory and the same fetched value and follower flag
at every call, the reset re-add branch being a no-op. -/
theorem c8_pow2_variants_equal (count k : Nat) (hk : k ≤ 31) (hc : count = 2 ^ k) :
    (SpinV2.barrier_init count).reset = 0 ∧
    (SpinV2.barrier_init count).word = (SpinV1.barrier_init count).word ∧
    (SpinV2.barrier_init count).n = (SpinV1.barrier_init count).n ∧
    ∀ m,
      (SpinV2.waitN (SpinV2.barrier_init count) m).word =
        (SpinV1.waitN (SpinV1.barrier_init count) m).word ∧
      (SpinV2.waitN (SpinV2.barrier_init count) m).reset = 0 ∧
      (SpinV2.barrier_wait (SpinV2.waitN (SpinV2.barrier_init count) m)).2 =
        (SpinV1.barrier_wait (SpinV1.waitN (SpinV1.barrier_init count) m)).2 := by
  subst hc
  have hflp : flp2 (2 ^ k) = 2 ^ k := flp2_two_pow hk
  have hclp : clp2 (2 ^ k) = 2 ^ k := clp2_two_pow hk
  have hle : (2 : Nat) ^ k ≤ 2 ^ 31 := Nat.pow_le_pow_right (by norm_num) hk
  have hU : (2 : Nat) ^ k < U32 := by rw [U32_eq]; omega
  have hres : usub (2 ^ k) (2 ^ k) = 0 := by rw [usub_eq (le_refl _) hU]; omega
  have hinit2 : SpinV2.barrier_init (2 ^ k) = ⟨0, 2 ^ k, 0⟩ := by
    show (⟨usub (clp2 (2 ^ k)) (2 ^ k), clp2 (2 ^ k), usub (clp2 (2 ^ k)) (2 ^ k)⟩ :
      SpinV2.barrier_t) = _
    rw [hclp, hres]
  have hinit1 : SpinV1.barrier_init (2 ^ k) = ⟨0, 2 ^ k⟩ := by
    show (⟨usub (flp2 (2 ^ k)) (2 ^ k), flp2 (2 ^ k)⟩ : SpinV1.barrier_t) = _
    rw [hflp, hres]
  have key : ∀ m, SpinV2.waitN ⟨0, 2 ^ k, 0⟩ m =
      ⟨(SpinV1.waitN ⟨0, 2 ^ k⟩ m).word, 2 ^ k, 0⟩ ∧
      SpinV1.waitN ⟨0, 2 ^ k⟩ m = ⟨(SpinV1.waitN ⟨0, 2 ^ k⟩ m).word, 2 ^ k⟩ := by
    intro m
    induction m with
    | zero => exact ⟨rfl, rfl⟩
    | succ m ih =>
      obtain ⟨ih2, ih1⟩ := ih
      constructor
      · show (SpinV2.barrier_wait (SpinV2.waitN ⟨0, 2 ^ k, 0⟩ m)).1 = _
        rw [ih2, barrier_wait_v2_reset_zero]
        show (⟨_, 2 ^ k, 0⟩ : SpinV2.barrier_t) = _
        have : (SpinV1.waitN ⟨0, 2 ^ k⟩ (m + 1)).word =
            ((SpinV1.waitN ⟨0, 2 ^ k⟩ m).word + 1) % U32 := by
          show (SpinV1.barrier_wait (SpinV1.waitN ⟨0, 2 ^ k⟩ m)).1.word = _
          rw [ih1]; rfl
        rw [this]
      · show (SpinV1.barrier_wait (SpinV1.waitN ⟨0, 2 ^ k⟩ m)).1 = _
        rw [ih1]
        rfl
  refine ⟨by rw [hinit2], by rw [hinit2, hinit1], by rw [hinit2, hinit1], fun m => ?_⟩
  rw [hinit2, hinit1]
  obtain ⟨h2, h1⟩ := key m
  refine ⟨by rw [h2], by rw [h2], ?_⟩
  rw [h2, h1, barrier_wait_v2_reset_zero]
  rfl

/-- C8 witness: the theorem applies at count = 4 = 2^2. -/
theorem c8_witness :
    (2 ≤ 31 ∧ 4 = 2 ^ 2) ∧
    ((SpinV2.barrier_init 4).reset = 0 ∧
    (SpinV2.barrier_init 4).word = (SpinV1.barrier_init 4).word ∧
    (SpinV2.barrier_init 4).n = (SpinV1.barrier_init 4).n ∧
    ∀ m,
      (SpinV2.waitN (SpinV2.barrier_init 4) m).word =
        (SpinV1.waitN (SpinV1.barrier_init 4) m).word ∧
      (SpinV2.waitN (SpinV2.barrier_init 4) m).reset = 0 ∧
      (SpinV2.barrier_wait (SpinV2.waitN (SpinV2.barrier_init 4) m)).2 =
        (SpinV1.barrier_wait (SpinV1.waitN (SpinV1.barrier_init 4) m)).2) :=
  ⟨⟨by decide, by decide⟩, c8_pow2_variants_equal 4 2 (by decide) (by decide)⟩

/-! ### C4: barrier self-reset round invariant -/

theorem barrier_wait_flag (b : SpinV2.barrier_t) :
    (SpinV2.barrier_wait b).2.2 = (((b.word + 1) % U32) &&& (b.n - 1) != 0) := by
  cases h : ((b.word + 1) % U32 &&& (b.n - 1)) != 0 with
  | true => simp [SpinV2.barrier_wait, h]
  | false =>
    simp only [SpinV2.barrier_wait, h]
    split
    · simp_all
    · split <;> rfl

theorem waitN_word_formula {N P R : Nat} (k : Nat) (hP : P = 2 ^ k) (hk : k ≤ 31)
    (hNpos : 1 ≤ N) (hNle : N ≤ P) (hR : R = P - N) :
    ∀ m, SpinV2.waitN ⟨R, P, R⟩ m = ⟨(R + m / N * P + m % N) % U32, P, R⟩ := by
  have hPpos : 0 < P := by rw [hP]; exact Nat.pow_pos (by norm_num)
  have hPU : P < U32 := by
    rw [hP, U32_eq]
    have : (2 : Nat) ^ k ≤ 2 ^ 31 := Nat.pow_le_pow_right (by norm_num) hk
    omega
  have hNpos' : 0 < N := hNpos
  have hand : ∀ x : Nat, (x % U32) &&& (P - 1) = x % P := by
    intro x
    rw [hP, U32_eq, Nat.and_pow_two_sub_one_eq_mod,
      Nat.mod_mod_of_dvd _ (pow_dvd_pow 2 (by omega))]
  intro m
  induction m with
  | zero =>
    have h0 : R % U32 = R := Nat.mod_eq_of_lt (by omega)
    simp [SpinV2.waitN, h0]
  | succ m ih =>
    have hrlt : m % N < N := Nat.mod_lt _ hNpos'
    show (SpinV2.barrier_wait (SpinV2.waitN ⟨R, P, R⟩ m)).1 = _
    rw [ih]
    have hv : ((R + m / N * P + m % N) % U32 + 1) % U32 =
        (R + m / N * P + (m % N + 1)) % U32 := by
      rw [Nat.mod_add_mod, Nat.add_assoc]
    have hlowv : ((R + m / N * P + (m % N + 1)) % U32) &&& (P - 1) =
        (R + (m % N + 1)) % P := by
      rw [hand]
      have e : R + m / N * P + (m % N + 1) = (R + (m % N + 1)) + m / N * P := by ring
      rw [e, Nat.add_mul_mod_self_right]
    have hdm := Nat.div_add_mod m N
    by_cases hcase : m % N + 1 < N
    · -- follower step
      have hlow : (R + (m % N + 1)) % P = R + (m % N + 1) :=
        Nat.mod_eq_of_lt (by omega)
      have hflag : (((R + m / N * P + m % N) % U32 + 1) % U32 &&& (P - 1) != 0) = true := by
        rw [hv, hlowv, hlow]
        simp only [bne_iff_ne, ne_eq]
        omega
      have hm1 : m + 1 = (m % N + 1) + N * (m / N) := by omega
      have hdiv1 : (m + 1) / N = m / N := by
        rw [hm1, Nat.add_mul_div_left _ _ hNpos', Nat.div_eq_of_lt hcase]
        simp
      have hmod1 : (m + 1) % N = m % N + 1 := by
        rw [hm1, Nat.add_mul_mod_self_left, Nat.mod_eq_of_lt hcase]
      simp only [SpinV2.barrier_wait, hflag, if_true]
      rw [hdiv1, hmod1]
      show (⟨((R + m / N * P + m % N) % U32 + 1) % U32, P, R⟩ : SpinV2.barrier_t) = _
      rw [hv]
    · -- releaser step
      have hNeq : m % N + 1 = N := by omega
      have hRP : R + N = P := by omega
      have hlow0 : (R + (m % N + 1)) % P = 0 := by
        rw [hNeq, hRP, Nat.mod_self]
      have hflag : (((R + m / N * P + m % N) % U32 + 1) % U32 &&& (P - 1) != 0) = false := by
        rw [hv, hlowv, hlow0]
        simp
      have hmulsucc : N * (m / N + 1) = N * (m / N) + N := Nat.mul_succ N (m / N)
      have hm1 : m + 1 = N * (m / N + 1) := by omega
      have hdiv1 : (m + 1) / N = m / N + 1 := by
        rw [hm1]; exact Nat.mul_div_cancel_left _ hNpos'
      have hmod1 : (m + 1) % N = 0 := by
        rw [hm1]; exact Nat.mul_mod_right N _
      have hsuccmul : (m / N + 1) * P = m / N * P + P := Nat.succ_mul (m / N) P
      simp only [SpinV2.barrier_wait, hflag, if_false, Bool.false_eq_true]
      by_cases hR0 : R = 0
      · have : (R != 0) = false := by simp [hR0]
        simp only [this, if_false, Bool.false_eq_true]
        rw [hdiv1, hmod1]
        show (⟨((R + m / N * P + m % N) % U32 + 1) % U32, P, R⟩ : SpinV2.barrier_t) = _
        rw [hv]
        have e : R + m / N * P + (m % N + 1) = R + (m / N + 1) * P + 0 := by omega
        rw [e]
      · have : (R != 0) = true := by simp [hR0]
        simp only [this, if_true]
        rw [hdiv1, hmod1]
        show (⟨(((R + m / N * P + m % N) % U32 + 1) % U32 + R) % U32, P, R⟩ :
          SpinV2.barrier_t) = _
        rw [hv, Nat.mod_add_mod]
        have e : R + m / N * P + (m % N + 1) + R = R + (m / N + 1) * P + 0 := by omega
        rw [e]

theorem phase_bit {Rv t : Nat} (q : Nat) (hR : Rv < 2 ^ t) (ht : t ≤ 31) :
    ((Rv + q * 2 ^ t) % U32) &&& 2 ^ t = q % 2 * 2 ^ t := by
  rw [U32_eq, Nat.and_two_pow, Nat.testBit_mod_two_pow]
  have ht32 : t < 32 := by omega
  simp only [ht32, decide_True, Bool.true_and]
  rw [Nat.testBit_to_div_mod]
  have hdiv : (Rv + q * 2 ^ t) / 2 ^ t = q := by
    rw [Nat.add_mul_div_right _ _ (Nat.pow_pos (by norm_num)), Nat.div_eq_of_lt hR]
    simp
  rw [hdiv]
  rcases Nat.mod_two_eq_zero_or_one q with h | h <;> simp [h]

theorem barrier_init_state (N : Nat) (h1 : 1 ≤ N) (h2 : N ≤ 2 ^ 31) :
    ∃ k, k ≤ 31 ∧ N ≤ 2 ^ k ∧
      SpinV2.barrier_init N = ⟨2 ^ k - N, 2 ^ k, 2 ^ k - N⟩ := by
  obtain ⟨k, hk31, hval, hle, hmin⟩ := clp2_spec h1 h2
  have hpow : (2 : Nat) ^ k ≤ 2 ^ 31 := Nat.pow_le_pow_right (by norm_num) hk31
  have hlt : clp2 N < U32 := by rw [U32_eq, hval]; omega
  have husub : usub (clp2 N) N = 2 ^ k - N := by rw [usub_eq (by omega) hlt, hval]
  refine ⟨k, hk31, hle, ?_⟩
  show (⟨usub (clp2 N) N, clp2 N, usub (clp2 N) N⟩ : SpinV2.barrier_t) = _
  rw [husub, hval]

/-- C4: for a barrier initialized once with N threads (1 <= N <= 2^31,
P = n = next power of two, correction R = reset = P - N), at every round
boundary K (i.e. after K*N serialized wait calls, each round consisting
of N increments with the releaser of the round additionally adding the
correction when it is nonzero): the counter mod P returns to the
correction, the phase bit (word & P) equals (K mod 2) * P and so flips
exactly once per round, the first j < N increments of round K+1 leave the
phase bit unchanged (so none of them can be attributed to round K), and
the wait call is classified as the releaser exactly when it is the Nth
call of its round. -/
theorem c4_barrier_selfreset (N K j : Nat) (h1 : 1 ≤ N) (h2 : N ≤ 2 ^ 31) (hj : j < N) :
    (SpinV2.waitN (SpinV2.barrier_init N) (K * N)).word % (SpinV2.barrier_init N).n =
      (SpinV2.barrier_init N).reset ∧
    ((SpinV2.waitN (SpinV2.barrier_init N) (K * N)).word &&& (SpinV2.barrier_init N).n) =
      K % 2 * (SpinV2.barrier_init N).n ∧
    ((SpinV2.waitN (SpinV2.barrier_init N) ((K + 1) * N)).word &&& (SpinV2.barrier_init N).n) ≠
      ((SpinV2.waitN (SpinV2.barrier_init N) (K * N)).word &&& (SpinV2.barrier_init N).n) ∧
    ((SpinV2.waitN (SpinV2.barrier_init N) (K * N + j)).word &&& (SpinV2.barrier_init N).n) =
      K % 2 * (SpinV2.barrier_init N).n ∧
    ((SpinV2.barrier_wait (SpinV2.waitN (SpinV2.barrier_init N) (K * N + j))).2.2 = false ↔
      j = N - 1) := by
  obtain ⟨k, hk31, hle, hinit⟩ := barrier_init_state N h1 h2
  have hNpos : 0 < N := h1
  have hPpos : (0 : Nat) < 2 ^ k := Nat.pow_pos (by norm_num)
  have hform := @waitN_word_formula N (2 ^ k) (2 ^ k - N) k rfl hk31 h1 hle rfl
  have hdivKN : K * N / N = K := Nat.mul_div_cancel _ hNpos
  have hmodKN : K * N % N = 0 := Nat.mul_mod_left K N
  have hdivKNj : (K * N + j) / N = K := by
    have e : K * N + j = j + N * K := by ring
    rw [e, Nat.add_mul_div_left _ _ hNpos, Nat.div_eq_of_lt hj]
    simp
  have hmodKNj : (K * N + j) % N = j := by
    have e : K * N + j = j + N * K := by ring
    rw [e, Nat.add_mul_mod_self_left, Nat.mod_eq_of_lt hj]
  have hwordK : (SpinV2.waitN (SpinV2.barrier_init N) (K * N)).word =
      ((2 ^ k - N) + K * 2 ^ k) % U32 := by
    rw [hinit, hform, hdivKN, hmodKN]
    simp
  have hwordKj : (SpinV2.waitN (SpinV2.barrier_init N) (K * N + j)).word =
      ((2 ^ k - N) + K * 2 ^ k + j) % U32 := by
    rw [hinit, hform, hdivKNj, hmodKNj]
  have hwordK1 : (SpinV2.waitN (SpinV2.barrier_init N) ((K + 1) * N)).word =
      ((2 ^ k - N) + (K + 1) * 2 ^ k) % U32 := by
    rw [hinit, hform, Nat.mul_div_cancel _ hNpos, Nat.mul_mod_left]
    simp
  have hnval : (SpinV2.barrier_init N).n = 2 ^ k := by rw [hinit]
  have hrval : (SpinV2.barrier_init N).reset = 2 ^ k - N := by rw [hinit]
  have hRlt : 2 ^ k - N < 2 ^ k := by omega
  have hdvd : (2 : Nat) ^ k ∣ U32 := by rw [U32_eq]; exact pow_dvd_pow 2 (by omega)
  refine ⟨?_, ?_, ?_, ?_, ?_⟩
  · rw [hwordK, hnval, hrval, Nat.mod_mod_of_dvd _ hdvd, Nat.add_mul_mod_self_right,
      Nat.mod_eq_of_lt hRlt]
  · rw [hwordK, hnval]
    exact phase_bit K hRlt hk31
  · rw [hwordK, hwordK1, hnval, phase_bit K hRlt hk31, phase_bit (K + 1) hRlt hk31]
    have : (K + 1) % 2 ≠ K % 2 := by omega
    intro hcon
    have heq : (K + 1) % 2 = K % 2 :=
      Nat.eq_of_mul_eq_mul_right hPpos hcon
    exact this heq
  · have e : (2 ^ k - N) + K * 2 ^ k + j = ((2 ^ k - N) + j) + K * 2 ^ k := by ring
    rw [hwordKj, hnval, e]
    exact phase_bit K (by omega) hk31
  · rw [barrier_wait_flag, hinit, hform, hdivKNj, hmodKNj]
    show ((((2 ^ k - N + K * 2 ^ k + j) % U32) + 1) % U32 &&& (2 ^ k - 1) != 0) = false ↔
      j = N - 1
    have hv : (((2 ^ k - N) + K * 2 ^ k + j) % U32 + 1) % U32 =
        (((2 ^ k - N) + (j + 1)) + K * 2 ^ k) % U32 := by
      rw [Nat.mod_add_mod]
      have e : (2 ^ k - N) + K * 2 ^ k + j + 1 = ((2 ^ k - N) + (j + 1)) + K * 2 ^ k := by
        ring
      rw [e]
    rw [hv, U32_eq, Nat.and_pow_two_sub_one_eq_mod,
      Nat.mod_mod_of_dvd _ (by exact pow_dvd_pow 2 (by omega)),
      Nat.add_mul_mod_self_right]
    by_cases hcase : j + 1 < N
    · have : ((2 ^ k - N) + (j + 1)) % 2 ^ k = (2 ^ k - N) + (j + 1) :=
        Nat.mod_eq_of_lt (by omega)
      rw [this, bne_eq_false_iff_eq]
      constructor
      · intro hcon; omega
      · intro hcon; omega
    · have hNeq : j + 1 = N := by omega
      have : ((2 ^ k - N) + (j + 1)) % 2 ^ k = 0 := by
        rw [hNeq]
        have e2 : (2 ^ k - N) + N = 2 ^ k := by omega
        rw [e2, Nat.mod_self]
      rw [this, bne_eq_false_iff_eq]
      constructor
      · intro _; omega
      · intro _; rfl

/-- C4 witness: the theorem applies at N = 3, K = 2, j = 1. -/
theorem c4_witness :
    (1 ≤ 3 ∧ 3 ≤ 2 ^ 31 ∧ 1 < 3) ∧
    ((SpinV2.waitN (SpinV2.barrier_init 3) (2 * 3)).word % (SpinV2.barrier_init 3).n =
      (SpinV2.barrier_init 3).reset ∧
    ((SpinV2.waitN (SpinV2.barrier_init 3) (2 * 3)).word &&& (SpinV2.barrier_init 3).n) =
      2 % 2 * (SpinV2.barrier_init 3).n ∧
    ((SpinV2.waitN (SpinV2.barrier_init 3) ((2 + 1) * 3)).word &&& (SpinV2.barrier_init 3).n) ≠
      ((SpinV2.waitN (SpinV2.barrier_init 3) (2 * 3)).word &&& (SpinV2.barrier_init 3).n) ∧
    ((SpinV2.waitN (SpinV2.barrier_init 3) (2 * 3 + 1)).word &&& (SpinV2.barrier_init 3).n) =
      2 % 2 * (SpinV2.barrier_init 3).n ∧
    ((SpinV2.barrier_wait (SpinV2.waitN (SpinV2.barrier_init 3) (2 * 3 + 1))).2.2 = false ↔
      1 = 3 - 1)) :=
  ⟨⟨by decide, by decide, by decide⟩, c4_barrier_selfreset 3 2 1 (by decide) (by decide) (by decide)⟩

/-! ### Enumerate loop: termination, bound, distinctness (C10) and
write-cursor bounds (C9) -/

theorem _wrap_lt {n size : Nat} (h : 0 < size) : _wrap n size < size := by
  unfold _wrap; split <;> omega

theorem _wrap_succ_eq_mod {i size : Nat} (h : i < size) :
    _wrap (i + 1) size = (i + 1) % size := by
  unfold _wrap
  split
  · exact (Nat.mod_eq_of_lt (by assumption)).symm
  · have he : i + 1 = size := by omega
    rw [he, Nat.mod_self]

theorem cycDist_zero_iff {size last i : Nat} (hi : i < size) (_hl : last < size) :
    cycDist size last i = 0 ↔ i = last := by
  unfold cycDist; split <;> omega

theorem cycDist_lt {size last i : Nat} (hi : i < size) (_hl : last < size) :
    cycDist size last i < size := by
  unfold cycDist; split <;> omega

theorem cycDist_step {size last i : Nat} (hi : i < size) (hl : last < size)
    (hne : i ≠ last) :
    cycDist size last ((i + 1) % size) = cycDist size last i - 1 := by
  unfold cycDist
  by_cases h1 : i + 1 < size
  · rw [Nat.mod_eq_of_lt h1]
    split <;> split <;> omega
  · have h2 : i + 1 = size := by omega
    rw [h2, Nat.mod_self]
    split <;> split <;> omega

theorem enumFuel_eq {size last : Nat} (hl : last < size) :
    ∀ fuel i, i < size → cycDist size last i ≤ fuel →
      enumFuel size last fuel i =
        (List.range (cycDist size last i)).map (fun t => (i + t) % size) := by
  intro fuel
  induction fuel with
  | zero =>
    intro i hi hd
    have h0 : cycDist size last i = 0 := by omega
    have hil : i = last := (cycDist_zero_iff hi hl).mp h0
    rw [h0]
    subst hil
    simp [enumFuel]
  | succ fuel ih =>
    intro i hi hd
    by_cases hil : i = last
    · have h0 : cycDist size last i = 0 := (cycDist_zero_iff hi hl).mpr hil
      rw [h0]
      simp [enumFuel, hil]
    · have hd0 : 0 < cycDist size last i := by
        rcases Nat.eq_zero_or_pos (cycDist size last i) with h | h
        · exact absurd ((cycDist_zero_iff hi hl).mp h) hil
        · exact h
      have hw : _wrap (i + 1) size = (i + 1) % size := _wrap_succ_eq_mod hi
      have hi' : (i + 1) % size < size := Nat.mod_lt _ (by omega)
      have hstep : cycDist size last ((i + 1) % size) = cycDist size last i - 1 :=
        cycDist_step hi hl hil
      have ihx := ih ((i + 1) % size) hi' (by omega)
      show (if i = last then [] else i :: enumFuel size last fuel (_wrap (i + 1) size)) = _
      rw [if_neg hil, hw, ihx, hstep]
      have hd' : cycDist size last i = (cycDist size last i - 1) + 1 := by omega
      rw [hd', List.range_succ_eq_map, List.map_cons, List.map_map]
      congr 1
      · rw [Nat.add_zero, Nat.mod_eq_of_lt hi]
      · apply List.map_congr_left
        intro t ht
        show ((i + 1) % size + t) % size = (i + (t + 1)) % size
        rw [Nat.mod_add_mod]
        have e : i + 1 + t = i + (t + 1) := by omega
        rw [e]

theorem enumFuel_mem_lt {size last : Nat} (hsz : 0 < size) :
    ∀ fuel i, i < size → ∀ x ∈ enumFuel size last fuel i, x < size := by
  intro fuel
  induction fuel with
  | zero => intro i hi x hx; simp [enumFuel] at hx
  | succ fuel ih =>
    intro i hi x hx
    simp only [enumFuel] at hx
    by_cases hil : i = last
    · rw [if_pos hil] at hx; simp at hx
    · rw [if_neg hil] at hx
      rcases List.mem_cons.mp hx with h | h
      · omega
      · exact ih (_wrap (i + 1) size) (_wrap_lt hsz) x h

/-- C10: on any ring state whose cursor next is below its capacity size,
the enumerate loop terminates within size iterations (any fuel of at
least size yields the same visit list), invokes the callback at most size
times, never visits the same slot twice, and on a freshly initialized
ring invokes the callback zero times. -/
theorem c10_enumerate_terminates (r : pstamp_ring_t) (hn : r.next < r.size) :
    (∀ extra, enumFuel r.size r.next (r.size + extra) (_wrap (r.end_ + 1) r.size) =
      pstamp_log_enumerate_idx r) ∧
    (pstamp_log_enumerate r).length ≤ r.size ∧
    (pstamp_log_enumerate_idx r).Nodup ∧
    (∀ g c, pstamp_log_enumerate (pstamp_ring_init g c) = []) := by
  have hsz : 0 < r.size := by omega
  have hstart : _wrap (r.end_ + 1) r.size < r.size := _wrap_lt hsz
  have hdlt : cycDist r.size r.next (_wrap (r.end_ + 1) r.size) < r.size :=
    cycDist_lt hstart hn
  have hmain := enumFuel_eq hn r.size (_wrap (r.end_ + 1) r.size) hstart (by omega)
  refine ⟨?_, ?_, ?_, ?_⟩
  · intro extra
    have h1 := enumFuel_eq hn (r.size + extra) (_wrap (r.end_ + 1) r.size) hstart (by omega)
    show _ = enumFuel r.size r.next r.size (_wrap (r.end_ + 1) r.size)
    rw [h1, hmain]
  · show ((pstamp_log_enumerate_idx r).map _).length ≤ r.size
    rw [List.length_map]
    show (enumFuel r.size r.next r.size (_wrap (r.end_ + 1) r.size)).length ≤ r.size
    rw [hmain, List.length_map, List.length_range]
    omega
  · show (enumFuel r.size r.next r.size (_wrap (r.end_ + 1) r.size)).Nodup
    rw [hmain]
    refine List.Nodup.map_on ?_ (List.nodup_range _)
    intro t1 ht1 t2 ht2 heq
    rw [List.mem_range] at ht1 ht2
    have hmod : t1 % r.size = t2 % r.size :=
      Nat.ModEq.add_left_cancel' _ heq
    rw [Nat.mod_eq_of_lt (by omega), Nat.mod_eq_of_lt (by omega)] at hmod
    exact hmod
  · intro g c
    show ((enumFuel c 0 c (_wrap (c + 1) c)).map _) = []
    have hwc : _wrap (c + 1) c = 0 := by unfold _wrap; split <;> omega
    rw [hwc]
    cases c with
    | zero => rfl
    | succ c => simp [enumFuel]

/-- C10 witness: the theorem applies at a concrete mid-write ring state of
capacity 2 with cursor 1. -/
theorem c10_witness :
    ((pstamp_ring_t.mk none 2 1 2 false 0
        [default, default]).next <
      (pstamp_ring_t.mk none 2 1 2 false 0 [default, default]).size) ∧
    ((∀ extra,
        enumFuel (pstamp_ring_t.mk none 2 1 2 false 0 [default, default]).size
          (pstamp_ring_t.mk none 2 1 2 false 0 [default, default]).next
          ((pstamp_ring_t.mk none 2 1 2 false 0 [default, default]).size + extra)
          (_wrap ((pstamp_ring_t.mk none 2 1 2 false 0 [default, default]).end_ + 1)
            (pstamp_ring_t.mk none 2 1 2 false 0 [default, default]).size) =
        pstamp_log_enumerate_idx (pstamp_ring_t.mk none 2 1 2 false 0 [default, default])) ∧
    (pstamp_log_enumerate (pstamp_ring_t.mk none 2 1 2 false 0 [default, default])).length ≤
      (pstamp_ring_t.mk none 2 1 2 false 0 [default, default]).size ∧
    (pstamp_log_enumerate_idx (pstamp_ring_t.mk none 2 1 2 false 0 [default, default])).Nodup ∧
    (∀ g c, pstamp_log_enumerate (pstamp_ring_init g c) = [])) :=
  ⟨by decide, c10_enumerate_terminates (pstamp_ring_t.mk none 2 1 2 false 0 [default, default])
    (by decide)⟩

/-- The record invariant of C9: cursor below capacity, size and end both
equal to the capacity, full backing array, and no successor. -/
def ringInv (c : Nat) (r : pstamp_ring_t) : Prop :=
  r.next < c ∧ r.size = c ∧ r.end_ = c ∧ r.ring.length = c ∧ r.next_ring = none

theorem pstamp_log_inv {c : Nat} {r : pstamp_ring_t} (hc : 1 ≤ c) (h : ringInv c r)
    (point lp : Int) (time : Nat) (cause : pstamp_t) :
    ringInv c (pstamp_log r point lp time cause).1 ∧
    (pstamp_log r point lp time cause).2 = false := by
  cases r with
  | mk nr size next end_ ia ov ring =>
    obtain ⟨h1, h2, h3, h4, h5⟩ := h
    simp only [pstamp_ring_t.next, pstamp_ring_t.size, pstamp_ring_t.end_,
      pstamp_ring_t.ring, pstamp_ring_t.next_ring] at h1 h2 h3 h4 h5
    subst h2 h3 h5
    have hne : ¬ (next = end_) := by omega
    simp only [pstamp_log, if_neg hne, writeEntry]
    refine ⟨⟨?_, rfl, rfl, ?_, rfl⟩, trivial⟩
    · exact _wrap_lt (by omega)
    · simp only [pstamp_ring_t.ring, List.length_set]
      exact h4

theorem recordRun_inv {c : Nat} (hc : 1 ≤ c) :
    ∀ (inputs : List RecordCall) (r : pstamp_ring_t), ringInv c r →
      ringInv c (recordRun r inputs) := by
  intro inputs
  induction inputs with
  | nil => intro r h; exact h
  | cons a rest ih =>
    intro r h
    exact ih _ (pstamp_log_inv hc h a.point a.lp a.time a.cause).1

/-- C9: from a ring initialized with capacity c >= 1 and a full backing
array, after any sequence of record calls the write cursor stays strictly
below c, size and end stay equal to c, the array keeps c slots, no
successor ever appears (so every slot index used by a record call, which
is the post-call cursor, lies in [0, c)), and every slot index visited by
enumerate lies in [0, c). -/
theorem c9_record_bounds (g : List pstamp_log_t) (c : Nat) (hc : 1 ≤ c)
    (hg : g.length = c) (inputs : List RecordCall) :
    (recordRun (pstamp_ring_init g c) inputs).next < c ∧
    (recordRun (pstamp_ring_init g c) inputs).size = c ∧
    (recordRun (pstamp_ring_init g c) inputs).end_ = c ∧
    (recordRun (pstamp_ring_init g c) inputs).ring.length = c ∧
    (recordRun (pstamp_ring_init g c) inputs).next_ring = none ∧
    ∀ i ∈ pstamp_log_enumerate_idx (recordRun (pstamp_ring_init g c) inputs), i < c := by
  have hinv0 : ringInv c (pstamp_ring_init g c) := by
    refine ⟨by simpa [pstamp_ring_init, pstamp_ring_t.next] using hc, rfl, rfl, ?_, rfl⟩
    simpa [pstamp_ring_init, pstamp_ring_t.ring] using hg
  obtain ⟨h1, h2, h3, h4, h5⟩ := recordRun_inv hc inputs _ hinv0
  refine ⟨h1, h2, h3, h4, h5, ?_⟩
  intro i hi
  have hsz : 0 < (recordRun (pstamp_ring_init g c) inputs).size := by omega
  have := @enumFuel_mem_lt (recordRun (pstamp_ring_init g c) inputs).size
    (recordRun (pstamp_ring_init g c) inputs).next hsz
    (recordRun (pstamp_ring_init g c) inputs).size
    (_wrap ((recordRun (pstamp_ring_init g c) inputs).end_ + 1)
      (recordRun (pstamp_ring_init g c) inputs).size)
    (_wrap_lt hsz) i hi
  omega

/-- C9 witness: the theorem applies to a capacity-2 ring and three record
calls. -/
theorem c9_witness :
    (1 ≤ 2 ∧ ([default, default] : List pstamp_log_t).length = 2) ∧
    ((recordRun (pstamp_ring_init [default, default] 2)
        [⟨1, 0, 11, default⟩, ⟨2, 0, 12, default⟩, ⟨3, 0, 13, default⟩]).next < 2 ∧
    (recordRun (pstamp_ring_init [default, default] 2)
        [⟨1, 0, 11, default⟩, ⟨2, 0, 12, default⟩, ⟨3, 0, 13, default⟩]).size = 2 ∧
    (recordRun (pstamp_ring_init [default, default] 2)
        [⟨1, 0, 11, default⟩, ⟨2, 0, 12, default⟩, ⟨3, 0, 13, default⟩]).end_ = 2 ∧
    (recordRun (pstamp_ring_init [default, default] 2)
        [⟨1, 0, 11, default⟩, ⟨2, 0, 12, default⟩, ⟨3, 0, 13, default⟩]).ring.length = 2 ∧
    (recordRun (pstamp_ring_init [default, default] 2)
        [⟨1, 0, 11, default⟩, ⟨2, 0, 12, default⟩, ⟨3, 0, 13, default⟩]).next_ring = none ∧
    ∀ i ∈ pstamp_log_enumerate_idx (recordRun (pstamp_ring_init [default, default] 2)
        [⟨1, 0, 11, default⟩, ⟨2, 0, 12, default⟩, ⟨3, 0, 13, default⟩]), i < 2) :=
  ⟨⟨by decide, by decide⟩,
    c9_record_bounds [default, default] 2 (by decide) (by decide)
      [⟨1, 0, 11, default⟩, ⟨2, 0, 12, default⟩, ⟨3, 0, 13, default⟩]⟩

/-! ### C1 and C2: the full-ring branch of pstamp_log is dead code -/

/-- C1 evaluation: on a capacity-2 ring with no successor, three record
calls (capacity + 1) wrap and overwrite the oldest entry, but the
overflow counter stays 0 (pstamp_log never increments overflows, and the
full test next == end is unreachable because end is initialized to size
while next always stays below size), and enumeration yields a single
entry, not the 2 retained ones. -/
theorem c1_overflows_stay_zero :
    (recordRun (pstamp_ring_init [default, default] 2)
      [⟨1, 0, 11, default⟩, ⟨2, 0, 12, default⟩, ⟨3, 0, 13, default⟩]).ring =
      [⟨⟨2, 0, 12⟩, default⟩, ⟨⟨3, 0, 13⟩, default⟩] ∧
    pstamp_log_overflows (recordRun (pstamp_ring_init [default, default] 2)
      [⟨1, 0, 11, default⟩, ⟨2, 0, 12, default⟩, ⟨3, 0, 13, default⟩]) = 0 ∧
    pstamp_log_enumerate (recordRun (pstamp_ring_init [default, default] 2)
      [⟨1, 0, 11, default⟩, ⟨2, 0, 12, default⟩, ⟨3, 0, 13, default⟩]) =
      [⟨⟨2, 0, 12⟩, default⟩] :=
  ⟨rfl, rfl, rfl⟩

/-- C2 evaluation: a capacity-2 ring successfully extended with a
capacity-2 successor never hands writes over to it: after capacity + 1
record calls the ring is still active, the successor is untouched (it
still equals its freshly initialized value), and enumerating the ring
followed by its successor yields a single entry instead of all three in
write order.  The handoff branch is unreachable from initialized rings. -/
theorem c2_successor_never_used :
    (pstamp_log_extend (pstamp_ring_init [default, default] 2)
      (pstamp_ring_init [default, default] 2)).1 = true ∧
    (recordRun (pstamp_log_extend (pstamp_ring_init [default, default] 2)
        (pstamp_ring_init [default, default] 2)).2
      [⟨1, 0, 11, default⟩, ⟨2, 0, 12, default⟩, ⟨3, 0, 13, default⟩]).inactive = false ∧
    (recordRun (pstamp_log_extend (pstamp_ring_init [default, default] 2)
        (pstamp_ring_init [default, default] 2)).2
      [⟨1, 0, 11, default⟩, ⟨2, 0, 12, default⟩, ⟨3, 0, 13, default⟩]).next_ring =
      some (pstamp_ring_init [default, default] 2) ∧
    pstamp_log_overflows (recordRun (pstamp_log_extend (pstamp_ring_init [default, default] 2)
        (pstamp_ring_init [default, default] 2)).2
      [⟨1, 0, 11, default⟩, ⟨2, 0, 12, default⟩, ⟨3, 0, 13, default⟩]) = 0 ∧
    (pstamp_log_enumerate (recordRun (pstamp_log_extend (pstamp_ring_init [default, default] 2)
        (pstamp_ring_init [default, default] 2)).2
      [⟨1, 0, 11, default⟩, ⟨2, 0, 12, default⟩, ⟨3, 0, 13, default⟩]) ++
      pstamp_log_enumerate (pstamp_ring_init [default, default] 2)) =
      [⟨⟨2, 0, 12⟩, default⟩] :=
  ⟨rfl, rfl, rfl, rfl, rfl⟩

/-! ### C5: extend semantics, first attach wins -/

theorem writeEntry_fields (r : pstamp_ring_t) (point lp : Int) (time : Nat)
    (cause : pstamp_t) :
    (writeEntry r point lp time cause).next_ring = r.next_ring ∧
    (writeEntry r point lp time cause).size = r.size ∧
    (writeEntry r point lp time cause).next = _wrap (r.next + 1) r.size ∧
    (writeEntry r point lp time cause).end_ = r.end_ ∧
    (writeEntry r point lp time cause).inactive = r.inactive ∧
    (writeEntry r point lp time cause).overflows = r.overflows ∧
    (writeEntry r point lp time cause).ring =
      r.ring.set (_wrap (r.next + 1) r.size) (log_pstamp point lp time cause) := by
  cases r with
  | mk nr size next end_ ia ov ring => exact ⟨rfl, rfl, rfl, rfl, rfl, rfl, rfl⟩

theorem pstamp_log_next_ring (r : pstamp_ring_t) (point lp : Int) (time : Nat)
    (cause : pstamp_t) :
    (pstamp_log r point lp time cause).1.next_ring = r.next_ring ∨
    (∃ sub, r.next_ring = some sub ∧
      (pstamp_log r point lp time cause).1.next_ring =
        some (writeEntry sub point lp time cause)) := by
  cases r with
  | mk nr0 size next end_ ia ov ring =>
    by_cases h : next = end_
    · cases nr0 with
      | none =>
        left
        simp only [pstamp_log, if_pos h]
        exact (writeEntry_fields _ point lp time cause).1
      | some sub =>
        right
        exact ⟨sub, rfl, by simp [pstamp_log, h, pstamp_ring_t.next_ring]⟩
    · left
      simp only [pstamp_log, if_neg h]
      exact (writeEntry_fields _ point lp time cause).1

/-- C5: pstamp_log_extend returns true and attaches the successor exactly
when the ring is still active and has no successor; otherwise it returns
false and leaves the ring completely unchanged.  After a successful
attach, any later extend call fails and the link still holds the first
successor, and a record call directs its write only to the ring itself or
to that first-attached successor (the link never changes to anything
else). -/
theorem c5_extend_semantics (r nr nr2 : pstamp_ring_t) (point lp : Int)
    (time : Nat) (cause : pstamp_t) :
    ((pstamp_log_extend r nr).1 = true ↔ r.inactive = false ∧ r.next_ring = none) ∧
    ((pstamp_log_extend r nr).1 = true →
      (pstamp_log_extend r nr).2.next_ring = some nr) ∧
    ((pstamp_log_extend r nr).1 = false → (pstamp_log_extend r nr).2 = r) ∧
    (r.inactive = false → r.next_ring = none →
      (pstamp_log_extend (pstamp_log_extend r nr).2 nr2).1 = false ∧
      (pstamp_log_extend (pstamp_log_extend r nr).2 nr2).2.next_ring = some nr) ∧
    (r.inactive = false → r.next_ring = none →
      ((pstamp_log (pstamp_log_extend r nr).2 point lp time cause).1.next_ring = some nr ∨
        (pstamp_log (pstamp_log_extend r nr).2 point lp time cause).1.next_ring =
          some (writeEntry nr point lp time cause))) := by
  cases r with
  | mk nr0 size next end_ ia ov ring =>
    cases ia with
    | false =>
      cases nr0 with
      | none =>
        refine ⟨by simp [pstamp_log_extend, pstamp_ring_t.inactive, pstamp_ring_t.next_ring],
          fun _ => rfl, by intro h; exact absurd h (by simp [pstamp_log_extend]),
          fun _ _ => ⟨rfl, rfl⟩, fun _ _ => ?_⟩
        have hlink : (pstamp_ring_t.mk (some nr) size next end_ false ov ring).next_ring =
            some nr := rfl
        show (pstamp_log (.mk (some nr) size next end_ false ov ring)
            point lp time cause).1.next_ring = some nr ∨
          (pstamp_log (.mk (some nr) size next end_ false ov ring)
            point lp time cause).1.next_ring = some (writeEntry nr point lp time cause)
        rcases pstamp_log_next_ring (.mk (some nr) size next end_ false ov ring)
            point lp time cause with h | ⟨sub, hsub, hres⟩
        · left
          exact h.trans hlink
        · right
          have : sub = nr := by
            rw [hlink] at hsub
            exact (Option.some_inj.mp hsub).symm
          rw [hres, this]
      | some s =>
        refine ⟨by simp [pstamp_log_extend, pstamp_ring_t.inactive, pstamp_ring_t.next_ring],
          ?_, fun _ => rfl, ?_, ?_⟩
        · intro h
          exact absurd h (by simp [pstamp_log_extend])
        · intro _ hcon
          exact absurd hcon (by simp [pstamp_ring_t.next_ring])
        · intro _ hcon
          exact absurd hcon (by simp [pstamp_ring_t.next_ring])
    | true =>
      refine ⟨by simp [pstamp_log_extend, pstamp_ring_t.inactive, pstamp_ring_t.next_ring],
        ?_, fun _ => rfl, ?_, ?_⟩
      · intro h
        refine absurd h ?_
        cases nr0 <;> simp [pstamp_log_extend]
      · intro hcon
        exact absurd hcon (by simp [pstamp_ring_t.inactive])
      · intro hcon
        exact absurd hcon (by simp [pstamp_ring_t.inactive])

/-- C5 witness: the theorem applies to a fresh capacity-2 ring with two
candidate successors. -/
theorem c5_witness :
    ((pstamp_ring_init [default] 1).inactive = false ∧
      (pstamp_ring_init [default] 1).next_ring = none) ∧
    (((pstamp_log_extend (pstamp_ring_init [default] 1)
        (pstamp_ring_init [default] 1)).1 = true ↔
      (pstamp_ring_init [default] 1).inactive = false ∧
        (pstamp_ring_init [default] 1).next_ring = none) ∧
    ((pstamp_log_extend (pstamp_ring_init [default] 1)
        (pstamp_ring_init [default] 1)).1 = true →
      (pstamp_log_extend (pstamp_ring_init [default] 1)
        (pstamp_ring_init [default] 1)).2.next_ring =
        some (pstamp_ring_init [default] 1)) ∧
    ((pstamp_log_extend (pstamp_ring_init [default] 1)
        (pstamp_ring_init [default] 1)).1 = false →
      (pstamp_log_extend (pstamp_ring_init [default] 1)
        (pstamp_ring_init [default] 1)).2 = pstamp_ring_init [default] 1) ∧
    ((pstamp_ring_init [default] 1).inactive = false →
      (pstamp_ring_init [default] 1).next_ring = none →
      (pstamp_log_extend (pstamp_log_extend (pstamp_ring_init [default] 1)
          (pstamp_ring_init [default] 1)).2 (pstamp_ring_init [default, default] 2)).1 =
        false ∧
      (pstamp_log_extend (pstamp_log_extend (pstamp_ring_init [default] 1)
          (pstamp_ring_init [default] 1)).2
        (pstamp_ring_init [default, default] 2)).2.next_ring =
        some (pstamp_ring_init [default] 1)) ∧
    ((pstamp_ring_init [default] 1).inactive = false →
      (pstamp_ring_init [default] 1).next_ring = none →
      ((pstamp_log (pstamp_log_extend (pstamp_ring_init [default] 1)
          (pstamp_ring_init [default] 1)).2 7 0 99 default).1.next_ring =
        some (pstamp_ring_init [default] 1) ∨
        (pstamp_log (pstamp_log_extend (pstamp_ring_init [default] 1)
          (pstamp_ring_init [default] 1)).2 7 0 99 default).1.next_ring =
          some (writeEntry (pstamp_ring_init [default] 1) 7 0 99 default)))) :=
  ⟨⟨rfl, rfl⟩,
    c5_extend_semantics (pstamp_ring_init [default] 1) (pstamp_ring_init [default] 1)
      (pstamp_ring_init [default, default] 2) 7 0 99 default⟩

/-! ### C7: record writes exactly one slot and copies the cause by value -/

theorem chainEntry_set_frame (nr0 : Option pstamp_ring_t) (s1 n1 e1 : Nat) (i1 : Bool)
    (o1 : Nat) (s2 n2 e2 : Nat) (i2 : Bool) (o2 : Nat) (ring : List pstamp_log_t)
    (idx : Nat) (hidx : idx < ring.length) (e : pstamp_log_t) :
    chainEntry (.mk nr0 s2 n2 e2 i2 o2 (ring.set idx e)) (false, idx) = some e ∧
    ∀ p, p ≠ (false, idx) →
      chainEntry (.mk nr0 s2 n2 e2 i2 o2 (ring.set idx e)) p =
        chainEntry (.mk nr0 s1 n1 e1 i1 o1 ring) p := by
  constructor
  · show (ring.set idx e)[idx]? = some e
    exact List.getElem?_set_eq_of_lt e hidx
  · rintro ⟨b, j⟩ hne
    cases b with
    | true => rfl
    | false =>
      have hj : idx ≠ j := by
        intro h
        exact hne (by rw [h])
      show (ring.set idx e)[j]? = ring[j]?
      exact List.getElem?_set_ne hj

/-- C7: a record call stores the new LoggedEvent, whose cause field is the
value copy of the cause argument, into exactly one slot of one ring of the
chain, and the entry stored at every other location of the ring and of
its successor, in particular its cause field, is left unchanged.  Since
only the value of the cause argument is stored, later changes to the
caller's variable cannot affect logged entries. -/
theorem c7_cause_value_copy (r : pstamp_ring_t) (point lp : Int) (time : Nat)
    (cause : pstamp_t) (hlen : r.ring.length = r.size) (hsz : 1 ≤ r.size)
    (hnr : ∀ sub, r.next_ring = some sub → sub.ring.length = sub.size ∧ 1 ≤ sub.size) :
    ∃ w : Bool × Nat,
      chainEntry (pstamp_log r point lp time cause).1 w =
        some (log_pstamp point lp time cause) ∧
      (log_pstamp point lp time cause).cause = cause ∧
      ∀ p, p ≠ w →
        chainEntry (pstamp_log r point lp time cause).1 p = chainEntry r p := by
  cases r with
  | mk nr0 size next end_ ia ov ring =>
    simp only [pstamp_ring_t.ring, pstamp_ring_t.size, pstamp_ring_t.next_ring]
      at hlen hsz hnr
    by_cases hfull : next = end_
    · cases nr0 with
      | none =>
        have hw2 : _wrap (_wrap (next + 1) size + 1) size < size := _wrap_lt (by omega)
        have hidx : _wrap (_wrap (next + 1) size + 1) size < ring.length := by omega
        have hred : (pstamp_log (.mk none size next end_ ia ov ring)
            point lp time cause).1 =
            .mk none size (_wrap (_wrap (next + 1) size + 1) size) (_wrap (next + 1) size)
              ia ov (ring.set (_wrap (_wrap (next + 1) size + 1) size)
                (log_pstamp point lp time cause)) := by
          simp only [pstamp_log, if_pos hfull, writeEntry]
        obtain ⟨h1, h2⟩ := chainEntry_set_frame none size next end_ ia ov size
          (_wrap (_wrap (next + 1) size + 1) size) (_wrap (next + 1) size) ia ov ring
          (_wrap (_wrap (next + 1) size + 1) size) hidx (log_pstamp point lp time cause)
        exact ⟨(false, _wrap (_wrap (next + 1) size + 1) size),
          by rw [hred]; exact h1, rfl, fun p hp => by rw [hred]; exact h2 p hp⟩
      | some sub =>
        obtain ⟨hslen, hssz⟩ := hnr sub rfl
        cases sub with
        | mk snr ssize snext send sia sov sring =>
          simp only [pstamp_ring_t.ring, pstamp_ring_t.size] at hslen hssz
          have hws : _wrap (snext + 1) ssize < ssize := _wrap_lt (by omega)
          have hidx : _wrap (snext + 1) ssize < sring.length := by omega
          have hred : (pstamp_log (.mk (some (.mk snr ssize snext send sia sov sring))
              size next end_ ia ov ring) point lp time cause).1 =
              .mk (some (.mk snr ssize (_wrap (snext + 1) ssize) send sia sov
                  (sring.set (_wrap (snext + 1) ssize) (log_pstamp point lp time cause))))
                size next end_ true ov ring := by
            simp only [pstamp_log, if_pos hfull, writeEntry]
          refine ⟨(true, _wrap (snext + 1) ssize), ?_, rfl, ?_⟩
          · rw [hred]
            show (sring.set (_wrap (snext + 1) ssize) (log_pstamp point lp time cause))[
              _wrap (snext + 1) ssize]? = some (log_pstamp point lp time cause)
            exact List.getElem?_set_eq_of_lt _ hidx
          · rintro ⟨b, j⟩ hp
            rw [hred]
            cases b with
            | false => rfl
            | true =>
              have hj : _wrap (snext + 1) ssize ≠ j := by
                intro h
                exact hp (by rw [h])
              show (sring.set (_wrap (snext + 1) ssize)
                  (log_pstamp point lp time cause))[j]? = sring[j]?
              exact List.getElem?_set_ne hj
    · have hw : _wrap (next + 1) size < size := _wrap_lt (by omega)
      have hidx : _wrap (next + 1) size < ring.length := by omega
      have hred : (pstamp_log (.mk nr0 size next end_ ia ov ring) point lp time cause).1 =
          .mk nr0 size (_wrap (next + 1) size) end_ ia ov
            (ring.set (_wrap (next + 1) size) (log_pstamp point lp time cause)) := by
        simp only [pstamp_log, if_neg hfull, writeEntry]
      obtain ⟨h1, h2⟩ := chainEntry_set_frame nr0 size next end_ ia ov size
        (_wrap (next + 1) size) end_ ia ov ring (_wrap (next + 1) size) hidx
        (log_pstamp point lp time cause)
      exact ⟨(false, _wrap (next + 1) size), by rw [hred]; exact h1, rfl,
        fun p hp => by rw [hred]; exact h2 p hp⟩

/-- C7 witness: the theorem applies to a fresh capacity-2 ring. -/
theorem c7_witness :
    ((pstamp_ring_init [default, default] 2).ring.length =
      (pstamp_ring_init [default, default] 2).size ∧
      1 ≤ (pstamp_ring_init [default, default] 2).size) ∧
    (∃ w : Bool × Nat,
      chainEntry (pstamp_log (pstamp_ring_init [default, default] 2) 7 0 99 default).1 w =
        some (log_pstamp 7 0 99 default) ∧
      (log_pstamp 7 0 99 default).cause = default ∧
      ∀ p, p ≠ w →
        chainEntry (pstamp_log (pstamp_ring_init [default, default] 2) 7 0 99 default).1 p =
          chainEntry (pstamp_ring_init [default, default] 2) p) :=
  ⟨⟨rfl, by decide⟩,
    c7_cause_value_copy (pstamp_ring_init [default, default] 2) 7 0 99 default rfl
      (by decide)
      (by simp [pstamp_ring_init, pstamp_ring_t.next_ring])⟩

/-! ### C6: the spec-modelled k-way merge -/

theorem headTimeD_cons_succ (l : List pstamp_log_t) (rest : List (List pstamp_log_t))
    (j : Nat) : headTimeD (l :: rest) (j + 1) = headTimeD rest j := rfl

theorem bestIdx_none_spec : ∀ {rs : List (List pstamp_log_t)}, bestIdx rs = none →
    ∀ j, j < rs.length → rs.getD j [] = [] := by
  intro rs
  induction rs with
  | nil => intro _ j hj; simp at hj
  | cons l rest ih =>
    intro h j hj
    cases hb : bestIdx rest with
    | none =>
      simp only [bestIdx, hb] at h
      by_cases hle : l.isEmpty
      · have hl : l = [] := List.isEmpty_iff.mp hle
        cases j with
        | zero => simpa using hl
        | succ j' =>
          have := ih hb j' (by simpa using hj)
          simpa using this
      · rw [if_neg hle] at h
        exact absurd h (by simp)
    | some j0 =>
      simp only [bestIdx, hb] at h
      by_cases hle : l.isEmpty
      · rw [if_pos hle] at h
        exact absurd h (by simp)
      · rw [if_neg hle] at h
        split at h <;> exact absurd h (by simp)

theorem bestIdx_some_spec : ∀ {rs : List (List pstamp_log_t)} {i : Nat},
    bestIdx rs = some i →
    i < rs.length ∧ rs.getD i [] ≠ [] ∧
    ∀ j, j < rs.length → rs.getD j [] ≠ [] →
      headTimeD rs i ≤ headTimeD rs j ∧ (headTimeD rs j ≤ headTimeD rs i → i ≤ j) := by
  intro rs
  induction rs with
  | nil => intro i h; simp [bestIdx] at h
  | cons l rest ih =>
    intro i h
    cases hb : bestIdx rest with
    | none =>
      have hrest := bestIdx_none_spec hb
      simp only [bestIdx, hb] at h
      by_cases hle : l.isEmpty
      · rw [if_pos hle] at h
        exact absurd h (by simp)
      · rw [if_neg hle] at h
        have hi0 : (0 : Nat) = i := Option.some_inj.mp h
        subst hi0
        refine ⟨by simp, by simpa [List.isEmpty_iff] using hle, ?_⟩
        intro j hj hne
        cases j with
        | zero => exact ⟨le_refl _, fun _ => le_refl _⟩
        | succ j' =>
          exfalso
          have := hrest j' (by simpa using hj)
          exact hne (by simpa using this)
    | some j0 =>
      obtain ⟨hj0len, hj0ne, hj0min⟩ := ih hb
      simp only [bestIdx, hb] at h
      by_cases hle : l.isEmpty
      · rw [if_pos hle] at h
        have hi : j0 + 1 = i := Option.some_inj.mp h
        subst hi
        have hlnil : l = [] := List.isEmpty_iff.mp hle
        refine ⟨by simpa using hj0len, by simpa using hj0ne, ?_⟩
        intro j hj hne
        cases j with
        | zero =>
          exfalso
          exact hne (by simpa using hlnil)
        | succ j' =>
          have hm := hj0min j' (by simpa using hj) (by simpa using hne)
          rw [headTimeD_cons_succ, headTimeD_cons_succ]
          exact ⟨hm.1, fun hh => by have := hm.2 hh; omega⟩
      · rw [if_neg hle] at h
        by_cases hcmp : headTimeD rest j0 < (l.headD default).pstamp.time
        · rw [if_pos hcmp] at h
          have hi : j0 + 1 = i := Option.some_inj.mp h
          subst hi
          refine ⟨by simpa using hj0len, by simpa using hj0ne, ?_⟩
          intro j hj hne
          cases j with
          | zero =>
            rw [headTimeD_cons_succ]
            have h0 : headTimeD (l :: rest) 0 = (l.headD default).pstamp.time := rfl
            rw [h0]
            exact ⟨le_of_lt hcmp, fun hh => by omega⟩
          | succ j' =>
            have hm := hj0min j' (by simpa using hj) (by simpa using hne)
            rw [headTimeD_cons_succ, headTimeD_cons_succ]
            exact ⟨hm.1, fun hh => by have := hm.2 hh; omega⟩
        · rw [if_neg hcmp] at h
          have hi : (0 : Nat) = i := Option.some_inj.mp h
          subst hi
          refine ⟨by simp, by simpa [List.isEmpty_iff] using hle, ?_⟩
          intro j hj hne
          cases j with
          | zero => exact ⟨le_refl _, fun _ => Nat.zero_le _⟩
          | succ j' =>
            have hm := (hj0min j' (by simpa using hj) (by simpa using hne)).1
            have h0 : headTimeD (l :: rest) 0 = (l.headD default).pstamp.time := rfl
            rw [headTimeD_cons_succ, h0]
            exact ⟨by omega, fun _ => Nat.zero_le _⟩

theorem totalLen_cons (l : List pstamp_log_t) (rest : List (List pstamp_log_t)) :
    totalLen (l :: rest) = l.length + totalLen rest := by
  simp [totalLen]

theorem totalLen_zero_of_all_nil : ∀ {rs : List (List pstamp_log_t)},
    (∀ j, j < rs.length → rs.getD j [] = []) → totalLen rs = 0 := by
  intro rs
  induction rs with
  | nil => intro _; rfl
  | cons l rest ih =>
    intro h
    have hl : l = [] := by simpa using h 0 (by simp)
    have hrest := ih (fun j hj => by simpa using h (j + 1) (by simpa using hj))
    rw [totalLen_cons, hrest, hl]
    rfl

theorem totalLen_pos : ∀ {rs : List (List pstamp_log_t)} {i : Nat}, i < rs.length →
    rs.getD i [] ≠ [] → 1 ≤ totalLen rs := by
  intro rs
  induction rs with
  | nil => intro i hi; simp at hi
  | cons l rest ih =>
    intro i hi hne
    cases i with
    | zero =>
      have hl : l ≠ [] := by simpa using hne
      have := List.length_pos.mpr hl
      rw [totalLen_cons]
      omega
    | succ i' =>
      have := ih (by simpa using hi) (by simpa using hne)
      rw [totalLen_cons]
      omega

theorem totalLen_set_tail : ∀ {rs : List (List pstamp_log_t)} {i : Nat}, i < rs.length →
    rs.getD i [] ≠ [] →
    totalLen (rs.set i (rs.getD i []).tail) + 1 = totalLen rs := by
  intro rs
  induction rs with
  | nil => intro i hi; simp at hi
  | cons l rest ih =>
    intro i hi hne
    cases i with
    | zero =>
      show totalLen (l.tail :: rest) + 1 = totalLen (l :: rest)
      rw [totalLen_cons, totalLen_cons]
      have hl : l ≠ [] := by simpa using hne
      have hlen : l.tail.length + 1 = l.length := by
        cases l with
        | nil => exact absurd rfl hl
        | cons a t => simp
      omega
    | succ i' =>
      show totalLen (l :: rest.set i' (rest.getD i' []).tail) + 1 = totalLen (l :: rest)
      rw [totalLen_cons, totalLen_cons]
      have := ih (by simpa using hi) (by simpa using hne)
      omega

theorem mergeRings_cons {rs : List (List pstamp_log_t)} {i : Nat}
    (h : bestIdx rs = some i) :
    mergeRings rs =
      (rs.getD i []).headD default :: mergeRings (rs.set i (rs.getD i []).tail) := by
  obtain ⟨hi, hne, _⟩ := bestIdx_some_spec h
  have hpos := totalLen_pos hi hne
  have hset := totalLen_set_tail hi hne
  show mergeFuel (totalLen rs) rs = _
  have e : totalLen rs = (totalLen rs - 1) + 1 := by omega
  rw [e]
  simp only [mergeFuel, h]
  show _ = _ :: mergeFuel (totalLen (rs.set i (rs.getD i []).tail)) _
  rw [show totalLen (rs.set i (rs.getD i []).tail) = totalLen rs - 1 from by omega]

theorem mergeRings_none {rs : List (List pstamp_log_t)} (h : bestIdx rs = none) :
    mergeRings rs = [] := by
  show mergeFuel (totalLen rs) rs = []
  cases ht : totalLen rs with
  | zero => rfl
  | succ t => simp [mergeFuel, h]

theorem mergeRings_length : ∀ (n : Nat) (rs : List (List pstamp_log_t)),
    totalLen rs = n → (mergeRings rs).length = totalLen rs := by
  intro n
  induction n with
  | zero =>
    intro rs h
    cases hb : bestIdx rs with
    | none => rw [mergeRings_none hb, h]; rfl
    | some i =>
      obtain ⟨hi, hne, _⟩ := bestIdx_some_spec hb
      have := totalLen_pos hi hne
      omega
  | succ n ih =>
    intro rs h
    cases hb : bestIdx rs with
    | none =>
      have := totalLen_zero_of_all_nil (bestIdx_none_spec hb)
      omega
    | some i =>
      obtain ⟨hi, hne, _⟩ := bestIdx_some_spec hb
      have hset := totalLen_set_tail hi hne
      rw [mergeRings_cons hb]
      simp only [List.length_cons]
      rw [ih _ (by omega)]
      omega

/-- C6: mergeRings (modelled from the spec, no merger exists in src) is a
finite k-way merge: merging rings with timestamps 10,30,50 and 20,40,60
yields 10,20,30,40,50,60; whenever some input still has entries, the step
emits the head with the smallest timestamp among the nonempty inputs,
with ties broken toward the smaller input index, and consumes exactly
that entry; when all inputs are exhausted the merge is empty; the output
always has exactly as many entries as all inputs together (finite, and
the inputs, being values, are never mutated). -/
theorem c6_merge_spec :
    mergeRings [[⟨⟨1, 0, 10⟩, default⟩, ⟨⟨1, 0, 30⟩, default⟩, ⟨⟨1, 0, 50⟩, default⟩],
        [⟨⟨2, 0, 20⟩, default⟩, ⟨⟨2, 0, 40⟩, default⟩, ⟨⟨2, 0, 60⟩, default⟩]] =
      [⟨⟨1, 0, 10⟩, default⟩, ⟨⟨2, 0, 20⟩, default⟩, ⟨⟨1, 0, 30⟩, default⟩,
        ⟨⟨2, 0, 40⟩, default⟩, ⟨⟨1, 0, 50⟩, default⟩, ⟨⟨2, 0, 60⟩, default⟩] ∧
    (∀ (rs : List (List pstamp_log_t)) (i : Nat), bestIdx rs = some i →
      (mergeRings rs =
        (rs.getD i []).headD default :: mergeRings (rs.set i (rs.getD i []).tail)) ∧
      i < rs.length ∧ rs.getD i [] ≠ [] ∧
      ∀ j, j < rs.length → rs.getD j [] ≠ [] →
        headTimeD rs i ≤ headTimeD rs j ∧ (headTimeD rs j ≤ headTimeD rs i → i ≤ j)) ∧
    (∀ rs : List (List pstamp_log_t), bestIdx rs = none → mergeRings rs = []) ∧
    (∀ rs : List (List pstamp_log_t), (mergeRings rs).length = totalLen rs) := by
  refine ⟨by decide, ?_, fun rs h => mergeRings_none h, fun rs => mergeRings_length _ rs rfl⟩
  intro rs i h
  obtain ⟨h1, h2, h3⟩ := bestIdx_some_spec h
  exact ⟨mergeRings_cons h, h1, h2, h3⟩

/-- C6 witness: the step characterization applies to concrete two-ring
input whose second ring holds the smaller head timestamp. -/
theorem c6_witness :
    bestIdx [[(⟨⟨1, 0, 30⟩, default⟩ : pstamp_log_t)], [⟨⟨2, 0, 20⟩, default⟩]] = some 1 ∧
    ((mergeRings [[(⟨⟨1, 0, 30⟩, default⟩ : pstamp_log_t)], [⟨⟨2, 0, 20⟩, default⟩]] =
      ([[(⟨⟨1, 0, 30⟩, default⟩ : pstamp_log_t)], [⟨⟨2, 0, 20⟩, default⟩]].getD 1 []).headD
          default ::
        mergeRings ([[(⟨⟨1, 0, 30⟩, default⟩ : pstamp_log_t)],
          [⟨⟨2, 0, 20⟩, default⟩]].set 1
          ([[(⟨⟨1, 0, 30⟩, default⟩ : pstamp_log_t)], [⟨⟨2, 0, 20⟩, default⟩]].getD 1
            []).tail)) ∧
      1 < ([[(⟨⟨1, 0, 30⟩, default⟩ : pstamp_log_t)], [⟨⟨2, 0, 20⟩, default⟩]] :
        List (List pstamp_log_t)).length ∧
      [[(⟨⟨1, 0, 30⟩, default⟩ : pstamp_log_t)], [⟨⟨2, 0, 20⟩, default⟩]].getD 1 [] ≠ [] ∧
      ∀ j, j < ([[(⟨⟨1, 0, 30⟩, default⟩ : pstamp_log_t)], [⟨⟨2, 0, 20⟩, default⟩]] :
          List (List pstamp_log_t)).length →
        [[(⟨⟨1, 0, 30⟩, default⟩ : pstamp_log_t)], [⟨⟨2, 0, 20⟩, default⟩]].getD j [] ≠ [] →
        headTimeD [[(⟨⟨1, 0, 30⟩, default⟩ : pstamp_log_t)], [⟨⟨2, 0, 20⟩, default⟩]] 1 ≤
          headTimeD [[(⟨⟨1, 0, 30⟩, default⟩ : pstamp_log_t)], [⟨⟨2, 0, 20⟩, default⟩]] j ∧
        (headTimeD [[(⟨⟨1, 0, 30⟩, default⟩ : pstamp_log_t)], [⟨⟨2, 0, 20⟩, default⟩]] j ≤
          headTimeD [[(⟨⟨1, 0, 30⟩, default⟩ : pstamp_log_t)], [⟨⟨2, 0, 20⟩, default⟩]] 1 →
          1 ≤ j)) :=
  ⟨by decide,
    c6_merge_spec.2.1 [[(⟨⟨1, 0, 30⟩, default⟩ : pstamp_log_t)], [⟨⟨2, 0, 20⟩, default⟩]] 1
      (by decide)⟩

end ClockSpeed
